import Mathlib

/-!
Shallow embedding of the deployment utility in src/github-deploy.py.

The program is a single sequential `main`: it loads a YAML configuration,
refuses to run as root unless `allow_root` is set, paginates through the
GitHub artifact listing, filters and sorts the artifact records, downloads
the freshest match, stages selected archive entries into temporary files,
stops services, copies the staged files, starts services, deletes the
staged files, and finally reports service status.

Pure decisions (pagination, filtering, sorting, glob matching, staging
order) are embedded as executable Lean functions.  Effectful steps
(subprocess invocations, network requests, sleeping, unlinking) are
embedded as an explicit event trace so that ordering and conditional
execution of the phases can be stated and proved.  Machine-chosen
temporary file names are modelled by a fresh natural-number counter:
`tempfile.NamedTemporaryFile` guarantees a fresh name per call, so the
keys inserted into the `temp_to_target` dict are pairwise distinct.
-/

namespace GithubDeploy

/-- One artifact record from the GitHub listing JSON, keeping exactly the
fields `main` reads: `art["id"]`, `art["name"]`, `art["updated_at"]` (an
ISO-8601 string, compared as a string by the sort key) and
`art["workflow_run"]["head_branch"]`. -/
structure ArtifactRecord where
  id : Nat
  name : String
  updated_at : String
  head_branch : String
deriving DecidableEq, Repr

/-- One entry of the `copy-files` configuration list: keys `archive-path`
and `target-path` (lines 96-109 of the source). -/
structure FileRule where
  archive_path : String
  target_path : String
deriving DecidableEq, Repr

/-- One entry of the `copy-patterns` configuration list: keys `pattern`
and `target-dir` (lines 112-135 of the source). -/
structure PatternRule where
  pattern : String
  target_dir : String
deriving DecidableEq, Repr

/-- A member of the downloaded zip archive, as enumerated by
`response_zip.infolist()`.  Only the entry name is consulted by the
program; `zipfile.ZipInfo.is_dir()` is derived from the name. -/
structure ZipEntry where
  filename : String
deriving DecidableEq, Repr

/-- The deploy configuration, mirroring the YAML keys that `main` reads.
`allow_root` is `none` when the key is absent, mirroring
`config.get("allow_root", False)`; `branch` is the value of
`config.get("branch", "")`, so the empty string means "no branch filter". -/
structure Config where
  allow_root : Option Bool
  repo : String
  artifact : String
  branch : String
  copy_files : List FileRule
  copy_patterns : List PatternRule
  systemd_services : List String
  zip_location : Option String
deriving DecidableEq, Repr

/-- Errors the embedded pipeline can surface.  `indexError` models the
unhandled Python `IndexError` raised by `wanted_artifacts[0]` on an empty
list; `keyError` models the `KeyError` raised by `ZipFile.open` on a
missing member name; `noMatch` models the dedicated `NoMatchError`
demanded by the specification, which no code path produces. -/
inductive Err where
  | indexError
  | keyError (entry : String)
  | noMatch
deriving DecidableEq, Repr

/-- True iff the string ends with a slash; used for
`zipfile.ZipInfo.is_dir()`, which is defined as
`self.filename.endswith("/")`, and for `os.path.flatten`. -/
def endsWithSlash (s : String) : Bool :=
  match s.data.getLast? with
  | some c => c = '/'
  | none => false

/-- True iff the string starts with a slash; used for `os.path.flatten`. -/
def startsWithSlash (s : String) : Bool :=
  match s.data with
  | '/' :: _ => true
  | [] => false
  | _ :: _ => false

/-- Mirrors `zipfile.ZipInfo.is_dir()`: an archive member is a directory
iff its name ends with a slash. -/
def ZipEntry.is_dir (e : ZipEntry) : Bool :=
  endsWithSlash e.filename

/-- Helper for `os.path.basename`: walks the character list, resetting the
accumulated segment at every slash, so the result is the part after the
last slash. -/
def basenameAux : List Char → List Char → List Char
  | [], cur => cur
  | c :: rest, cur =>
    if c = '/' then basenameAux rest []
    else basenameAux rest (cur ++ [c])

/-- Mirrors `os.path.basename` on POSIX: everything after the last slash
(the empty string if the path ends with a slash). -/
def basename (s : String) : String :=
  ⟨basenameAux s.data []⟩

/-- Mirrors `os.path.flatten(a, b)` on POSIX for two components: an absolute
second component replaces the first; otherwise a separator is inserted
unless the first component is empty or already ends with a slash. -/
def pathJoin (a b : String) : String :=
  if startsWithSlash b then b
  else if a = "" || endsWithSlash a then a ++ b
  else a ++ "/" ++ b

/-- Scans a character-class body for its closing bracket, returning the
class body and the remainder of the pattern, or `none` when the class is
unterminated.  Mirrors the `pat.find("]", j)` scan in
`fnmatch.translate`. -/
def scanClose : List Char → Option (List Char × List Char)
  | [] => none
  | c :: r =>
    if c = ']' then some ([], r)
    else (scanClose r).map (fun br => (c :: br.1, br.2))

/-- Splits a character class at its closing bracket, treating a bracket in
the first position as a literal member, as `fnmatch.translate` does (it
starts the closing-bracket scan one position later in that case). -/
def splitClass : List Char → Option (List Char × List Char)
  | [] => none
  | c :: rest =>
    if c = ']' then (scanClose rest).map (fun br => (']' :: br.1, br.2))
    else scanClose (c :: rest)

/-- Termination fact for the glob matcher: the closing-bracket scan
consumes at least one character. -/
theorem scanClose_length : ∀ l b r, scanClose l = some (b, r) → r.length < l.length := by
  intro l
  induction l with
  | nil => intro b r h; simp [scanClose] at h
  | cons c t ih =>
    intro b r h
    rw [scanClose] at h
    split at h
    · simp at h; rw [← h.2]; simp
    · cases ht : scanClose t with
      | none => rw [ht] at h; simp at h
      | some p =>
        rw [ht] at h; simp at h
        have := ih p.1 p.2 (by rw [ht])
        rw [← h.2]; simp; omega

/-- Termination fact for the glob matcher: splitting off a character
class consumes at least one character. -/
theorem splitClass_length : ∀ l b r, splitClass l = some (b, r) → r.length < l.length := by
  intro l b r h
  match l with
  | [] => simp [splitClass] at h
  | c :: rest =>
    rw [splitClass] at h
    split at h
    · cases ht : scanClose rest with
      | none => rw [ht] at h; simp at h
      | some p =>
        rw [ht] at h; simp at h
        have := scanClose_length rest p.1 p.2 (by rw [ht])
        rw [← h.2]; simp; omega
    · have := scanClose_length (c :: rest) b r h
      omega

/-- Tests a character against the body of a character class: `lo-hi`
spans are ranges (empty when reversed, as in `fnmatch.translate`), every
other character is a literal member. -/
def classBodyMatch : List Char → Char → Bool
  | [], _ => false
  | lo :: '-' :: hi :: rest, c =>
    (decide (lo ≤ c) && decide (c ≤ hi)) || classBodyMatch rest c
  | m :: rest, c => (c = m) || classBodyMatch rest c

/-- Shell-style glob matching of a whole string against a whole pattern,
mirroring `fnmatch.fnmatch` on POSIX (where `os.path.normcase` is the
identity): `*` matches any run of characters including slashes, `?`
matches exactly one character, `[...]` and `[!...]` are character
classes, and an unterminated `[` is a literal bracket. -/
def globMatch (p : List Char) (s : List Char) : Bool :=
  match p, s with
  | [], [] => true
  | [], _ :: _ => false
  | '*' :: ps, s =>
    globMatch ps s ||
      (match s with
       | [] => false
       | _ :: s1 => globMatch ('*' :: ps) s1)
  | '?' :: ps, s =>
    (match s with
     | [] => false
     | _ :: s1 => globMatch ps s1)
  | '[' :: '!' :: ps, s =>
    (match hsc : splitClass ps with
     | none =>
       (match s with
        | [] => false
        | c :: s1 => c = '[' && globMatch ('!' :: ps) s1)
     | some br =>
       (match s with
        | [] => false
        | c :: s1 => (!classBodyMatch br.1 c) && globMatch br.2 s1))
  | '[' :: ps, s =>
    (match hsc : splitClass ps with
     | none =>
       (match s with
        | [] => false
        | c :: s1 => c = '[' && globMatch ps s1)
     | some br =>
       (match s with
        | [] => false
        | c :: s1 => classBodyMatch br.1 c && globMatch br.2 s1))
  | c :: ps, s =>
    (match s with
     | [] => false
     | c1 :: s1 => c1 = c && globMatch ps s1)
termination_by p.length + s.length
decreasing_by
  all_goals simp_wf
  all_goals try omega
  all_goals have h1 := splitClass_length _ br.1 br.2 hsc
  all_goals omega

/-- Mirrors `fnmatch.fnmatch(name, pattern)` (source line 119). -/
def fnmatch (name pat : String) : Bool :=
  globMatch pat.data name.data

/-- Fuel-indexed embedding of the pagination `while` loop (source lines
60-66).  The provider is a function from page number to the artifact
list of that page; `acc` is `all_artifacts`, `total` is the
provider-reported `total_count` from the first response, and `page` is
the next page to request.  The loop guard `len(all_artifacts) <
artifact_count` is checked before each request; each iteration extends
the accumulator with the requested page and increments the page number.
Fuel bounds the number of iterations: `none` means the loop has not
terminated within `fuel` iterations (the real loop would still be
running), `some (arts, page)` is the loop exit state. -/
def paginateAux (pages : Nat → List ArtifactRecord) (total : Nat)
    (acc : List ArtifactRecord) (page : Nat) (fuel : Nat) :
    Option (List ArtifactRecord × Nat) :=
  if acc.length < total then
    match fuel with
    | 0 => none
    | f + 1 => paginateAux pages total (acc ++ pages page) (page + 1) f
  else some (acc, page)

/-- Embedding of the whole artifact-listing retrieval (source lines
55-66): the first request (no page parameter) returns page 1 and the
total count, then the loop continues from page 2. -/
def fetchAllArtifacts (pages : Nat → List ArtifactRecord) (total fuel : Nat) :
    Option (List ArtifactRecord × Nat) :=
  paginateAux pages total (pages 1) 2 fuel

/-- The pages the provider would serve starting at page `p`, as a list of
`m` consecutive pages; used to state what the pagination loop can
accumulate. -/
def pagesFrom (pages : Nat → List ArtifactRecord) (p m : Nat) :
    List (List ArtifactRecord) :=
  match m with
  | 0 => []
  | m + 1 => pages p :: pagesFrom pages (p + 1) m

/-- A provider that serves a fixed partition of the artifact list: page
`n` is the `n`-th chunk, and pages past the last chunk are empty.  Used
to instantiate the pagination loop on an arbitrary provider-chosen
page-size split. -/
def pageOf (chunks : List (List ArtifactRecord)) (n : Nat) :
    List ArtifactRecord :=
  chunks.getD (n - 1) []

/-- Mirrors the filter comprehension of source lines 69-79: keep a
record iff its `name` equals `config["artifact"]` and the branch filter
`want_branch = config.get("branch", "")` is empty (Python falsy) or
equals the record's `workflow_run.head_branch`. -/
def wanted_artifacts (cfg : Config) (arts : List ArtifactRecord) :
    List ArtifactRecord :=
  arts.filter (fun art =>
    art.name == cfg.artifact
      && (cfg.branch == "" || art.head_branch == cfg.branch))

/-- The sort comparator induced by
`sort(key=lambda art: art["updated_at"], reverse=True)`: record `a` may
precede record `b` iff `b`'s key is at most `a`'s key (string
comparison, descending). -/
def artifactLe (a b : ArtifactRecord) : Bool :=
  decide (b.updated_at ≤ a.updated_at)

/-- Mirrors source line 80: a stable descending sort of the records by
their `updated_at` string.  CPython's `list.sort` is documented to be
stable (with `reverse=True` it does not reverse ties), and
`List.mergeSort` is a stable sort, so the two compute the same list. -/
def sortByFreshness (l : List ArtifactRecord) : List ArtifactRecord :=
  l.mergeSort artifactLe

/-- Mirrors the selection on source line 83: the program takes
`wanted_artifacts[0]` after the in-place sort.  On an empty list the
subscript raises an unhandled `IndexError`, embedded as
`Err.indexError`; no path produces the specification's `NoMatchError`. -/
def locate (cfg : Config) (arts : List ArtifactRecord) :
    Except Err ArtifactRecord :=
  match sortByFreshness (wanted_artifacts cfg arts) with
  | [] => Except.error Err.indexError
  | a :: _ => Except.ok a

/-- Membership test used by `ZipFile.open(name)`: the archive has a
member with exactly this name. -/
def hasEntry (entries : List ZipEntry) (nm : String) : Bool :=
  entries.any (fun e => e.filename == nm)

/-- Python-dict insertion on an association list: assigning to an
existing key overwrites it in place (keeping its position), assigning a
fresh key appends.  `temp_to_target` is such a dict keyed by the
temporary file name; temporary names are modelled by the natural-number
creation counter, since `NamedTemporaryFile` yields a fresh name per
call. -/
def dictInsert (d : List (Nat × String)) (k : Nat) (v : String) :
    List (Nat × String) :=
  if d.any (fun p => p.1 == k) then
    d.map (fun p => if p.1 == k then (p.1, v) else p)
  else d ++ [(k, v)]

/-- Mirrors the `copy-files` extraction loop (source lines 96-109): for
each rule in order, open the archive member named `archive-path`
(`ZipFile.open` raises `KeyError` when absent), stream it to a fresh
temporary file, and record `temp_to_target[ntf_name] = target-path`.
The state is the dict `d` and the fresh-name counter `ctr`. -/
def stageCopyFiles (entries : List ZipEntry) :
    List FileRule → List (Nat × String) → Nat →
    Except Err (List (Nat × String) × Nat)
  | [], d, ctr => Except.ok (d, ctr)
  | r :: rs, d, ctr =>
    if hasEntry entries r.archive_path then
      stageCopyFiles entries rs (dictInsert d ctr r.target_path) (ctr + 1)
    else Except.error (Err.keyError r.archive_path)

/-- Mirrors the inner loop of the `copy-patterns` extraction (source
lines 115-135) for one pattern rule: enumerate the archive members in
order, skip directories, skip names not matching the glob against the
full archive-internal path, and for each match record a fresh temporary
file mapped to `os.path.flatten(target-dir, os.path.basename(name))`. -/
def stagePattern (pr : PatternRule) :
    List ZipEntry → List (Nat × String) → Nat → List (Nat × String) × Nat
  | [], d, ctr => (d, ctr)
  | e :: es, d, ctr =>
    if e.is_dir then stagePattern pr es d ctr
    else if !fnmatch e.filename pr.pattern then stagePattern pr es d ctr
    else
      stagePattern pr es
        (dictInsert d ctr (pathJoin pr.target_dir (basename e.filename)))
        (ctr + 1)

/-- Mirrors the outer loop of the `copy-patterns` extraction (source
lines 112-135): the pattern rules are processed in list order, threading
the dict and the fresh-name counter. -/
def stagePatterns (entries : List ZipEntry) :
    List PatternRule → List (Nat × String) → Nat → List (Nat × String) × Nat
  | [], d, ctr => (d, ctr)
  | pr :: prs, d, ctr =>
    let dc := stagePattern pr entries d ctr
    stagePatterns entries prs dc.1 dc.2

/-- The whole extraction stage (source lines 93-135): starting from the
empty dict and counter 0, the `copy-files` loop runs first, then the
`copy-patterns` loops.  The result is the final `temp_to_target` dict. -/
def stageAll (cfg : Config) (entries : List ZipEntry) :
    Except Err (List (Nat × String)) := do
  let dc1 ← stageCopyFiles entries cfg.copy_files [] 0
  let dc2 := stagePatterns entries cfg.copy_patterns dc1.1 dc1.2
  return dc2.1

/-- One observable effect of the deployment phases (source lines
137-157).  Each `sudo*` constructor records one
`subprocess.run(["sudo", ...])` invocation with the given argument
vector; `unlinkTemp` records `os.unlink` on a staged temporary file
(identified by its creation counter); `sleepFor` records `time.sleep`. -/
inductive Event where
  | sudoStop (service : String)
  | sudoCp (tmp : Nat) (target : String)
  | sudoStart (service : String)
  | sudoStatus (service : String)
  | sleepFor (seconds : ℚ)
  | unlinkTemp (tmp : Nat)
deriving DecidableEq, Repr

/-- Source lines 138-140: `sudo systemctl stop` for each service in list
order. -/
def stopEvents (services : List String) : List Event :=
  services.map Event.sudoStop

/-- Source lines 143-144: `sudo cp` for each recorded
`(temporary, target)` pair, in dict iteration order, which for a Python
dict is insertion order. -/
def copyEvents (staged : List (Nat × String)) : List Event :=
  staged.map (fun p => Event.sudoCp p.1 p.2)

/-- Source lines 146-148: `sudo systemctl start` for each service in
list order. -/
def startEvents (services : List String) : List Event :=
  services.map Event.sudoStart

/-- Source lines 150-152: `os.unlink` for each staged temporary file, in
dict iteration order. -/
def unlinkEvents (staged : List (Nat × String)) : List Event :=
  staged.map (fun p => Event.unlinkTemp p.1)

/-- Source lines 154-157: only when the service list is non-empty
(Python truthiness of a list), sleep 1.5 seconds and then run
`sudo env PAGER= systemctl status` for each service in list order. -/
def statusEvents (services : List String) : List Event :=
  if services = [] then []
  else Event.sleepFor (3 / 2) :: services.map Event.sudoStatus

/-- The straight-line deployment sequencer (source lines 137-157): stop
phase, copy phase, start phase, cleanup phase, status phase.  There is
no conditional abort anywhere in this stretch of `main`: every
`subprocess.run` is invoked without `check=True`, so a non-zero exit
status of any stop/copy/start/status command does not raise and the
following events still happen. -/
def deployProgram (staged : List (Nat × String)) (services : List String) :
    List Event :=
  stopEvents services ++ copyEvents staged ++ startEvents services
    ++ unlinkEvents staged ++ statusEvents services

/-- Executes an event list over the set of staged temporary files
present on disk, consulting an arbitrary outcome oracle `res` for the
exit status of each subprocess event.  The returned trace pairs every
event with its oracle outcome; the file state only changes at
`unlinkTemp` events.  Because the source never inspects a
`CompletedProcess`, outcomes cannot influence which events run. -/
def execEvents (res : Event → Int) :
    List Event → List Nat → List (Event × Int) × List Nat
  | [], files => ([], files)
  | ev :: rest, files =>
    let files1 :=
      match ev with
      | Event.unlinkTemp t => files.filter (fun f => f ≠ t)
      | _ => files
    let tr := execEvents res rest files1
    ((ev, res ev) :: tr.1, tr.2)

/-- Mirrors source lines 44-46: the run refuses to continue iff
`config.get("allow_root", False)` is falsy and `os.geteuid()` is 0. -/
def rootRefusal (cfg : Config) (euid : Nat) : Bool :=
  !(cfg.allow_root.getD false) && euid == 0

/-- Effects of the front part of `main` (before extraction), used to
state what happens before any network request. -/
inductive PreEvent where
  | sudoValidate
  | netList (repo : String) (page : Option Nat)
  | netZip (repo : String) (id : Nat)
deriving DecidableEq, Repr

/-- Outcome of the front part of `main`: `exited code` is `sys.exit`,
`hung` means the pagination loop was still running when the fuel ran
out, `crashed` is an unhandled Python exception, `selected` reaches the
artifact download with the chosen record. -/
inductive RunOutcome where
  | exited (code : Nat)
  | hung
  | crashed (e : Err)
  | selected (a : ArtifactRecord)
deriving DecidableEq, Repr

/-- Embedding of `main` from the root check up to the artifact-zip
request (source lines 44-83): the root gate exits with status 1 before
`sudo -v` and before the first network request; otherwise the listing is
fetched page by page and the freshest matching record is selected.  The
trace lists the `sudo -v` call and every network request in order. -/
def runToSelection (cfg : Config) (euid : Nat)
    (pages : Nat → List ArtifactRecord) (total fuel : Nat) :
    List PreEvent × RunOutcome :=
  if rootRefusal cfg euid then ([], RunOutcome.exited 1)
  else
    let ev0 : List PreEvent :=
      [PreEvent.sudoValidate, PreEvent.netList cfg.repo none]
    match fetchAllArtifacts pages total fuel with
    | none => (ev0, RunOutcome.hung)
    | some artsPage =>
      let evs := ev0 ++
        (List.range (artsPage.2 - 2)).map
          (fun i => PreEvent.netList cfg.repo (some (i + 2)))
      match locate cfg artsPage.1 with
      | Except.error e => (evs, RunOutcome.crashed e)
      | Except.ok a => (evs ++ [PreEvent.netZip cfg.repo a.id], RunOutcome.selected a)

/-- The archive members one pattern rule selects: the non-directory
entries whose full archive-internal path matches the rule's glob. -/
def patternMatches (pr : PatternRule) (es : List ZipEntry) : List ZipEntry :=
  es.filter (fun e => !e.is_dir && fnmatch e.filename pr.pattern)

/-- The destinations one pattern rule records, in archive enumeration
order: the rule's target directory joined with the basename of each
matching entry. -/
def patternTargets (pr : PatternRule) (es : List ZipEntry) : List String :=
  (patternMatches pr es).map (fun e => pathJoin pr.target_dir (basename e.filename))

/-- Pairs a list of destinations with consecutive fresh temporary-file
counters starting at `c`; the closed form of a staging loop's output. -/
def tagFrom (c : Nat) : List String → List (Nat × String)
  | [] => []
  | v :: vs => (c, v) :: tagFrom (c + 1) vs

/-- Invariant of the staging loops: every key already in the dict is an
earlier creation counter than the next fresh one. -/
def keysBelow (d : List (Nat × String)) (c : Nat) : Prop :=
  ∀ p ∈ d, p.1 < c

/-- Recognizes the events of the status-reporting phase: the settle
delay and the `systemctl status` invocations. -/
def isStatusPhase : Event → Bool
  | Event.sleepFor _ => true
  | Event.sudoStatus _ => true
  | _ => false

/-- Recognizes the events of the copy phase: the `sudo cp`
invocations. -/
def isCopyEvent : Event → Bool
  | Event.sudoCp _ _ => true
  | _ => false

/-- Sample artifact: name `app`, branch `main`, earlier timestamp. -/
def artA : ArtifactRecord :=
  { id := 1, name := "app", updated_at := "2024-01-02T10:00:00Z", head_branch := "main" }

/-- Sample artifact: name `app`, branch `main`, later timestamp. -/
def artB : ArtifactRecord :=
  { id := 2, name := "app", updated_at := "2024-01-03T10:00:00Z", head_branch := "main" }

/-- Sample artifact whose name matches no sample configuration. -/
def artOther : ArtifactRecord :=
  { id := 3, name := "other", updated_at := "2024-01-04T10:00:00Z", head_branch := "main" }

/-- Sample configuration: wants artifact `app` from any branch, no
copy rules, no services, no root opt-in. -/
def cfgEx : Config :=
  { allow_root := none, repo := "owner/name", artifact := "app", branch := ""
  , copy_files := [], copy_patterns := [], systemd_services := []
  , zip_location := none }

/-- Sample pattern rule: all `.so` files into `/opt/app/lib`. -/
def prEx : PatternRule :=
  { pattern := "*.so", target_dir := "/opt/app/lib" }

/-- Sample archive listing: a directory entry, two shared objects at
different depths, and a text file. -/
def entriesEx : List ZipEntry :=
  [⟨"lib/"⟩, ⟨"lib/x.so"⟩, ⟨"lib/y.txt"⟩, ⟨"lib/sub/z.so"⟩]

/-- Sample configuration for the staging-order claim: one explicit copy
rule and one pattern rule over `entriesEx`. -/
def cfgStageEx : Config :=
  { allow_root := some true, repo := "owner/name", artifact := "app", branch := ""
  , copy_files := [⟨"lib/y.txt", "/etc/app/y.txt"⟩]
  , copy_patterns := [prEx], systemd_services := ["app.service"]
  , zip_location := none }

/-- Expected staging dict for `cfgStageEx` over `entriesEx`: the
explicit copy rule first, then the two pattern matches in archive
order. -/
def dEx : List (Nat × String) :=
  [(0, "/etc/app/y.txt"), (1, "/opt/app/lib/x.so"), (2, "/opt/app/lib/z.so")]

/-- Sample page split of the listing `[artA, artB]` into two one-record
pages. -/
def chunksEx : List (List ArtifactRecord) :=
  [[artA], [artB]]

/-- Sample provider for the pagination-termination claim: page 3 carries
the single record, every other page (pages 1 and 2 included) is
empty. -/
def pagesSkip (n : Nat) : List ArtifactRecord :=
  if n = 3 then [artA] else []

/-- C4: a record survives the filter of source lines 70-79 iff it is in
the listing, its name equals the configured artifact name, and either
the branch filter is empty (imposing no restriction) or the record's
source branch equals it. -/
theorem wanted_artifacts_mem_iff (cfg : Config) (arts : List ArtifactRecord)
    (a : ArtifactRecord) :
    a ∈ wanted_artifacts cfg arts ↔
      a ∈ arts ∧ a.name = cfg.artifact ∧
        (cfg.branch = "" ∨ a.head_branch = cfg.branch) := by
  simp [wanted_artifacts, List.mem_filter, and_assoc]

/-- C8: when the configuration does not set `allow_root` and the
effective uid is 0, the run exits with status 1 and its trace is empty:
no `sudo -v`, no network request, no later phase happens (source lines
44-46 precede every other effect of `main`). -/
theorem root_gate_refuses (cfg : Config) (euid : Nat)
    (pages : Nat → List ArtifactRecord) (total fuel : Nat)
    (h1 : cfg.allow_root = none) (h2 : euid = 0) :
    runToSelection cfg euid pages total fuel = ([], RunOutcome.exited 1) := by
  simp [runToSelection, rootRefusal, h1, h2]

/-- Witness for C8 at a concrete configuration without the opt-in. -/
theorem root_gate_refuses_witness :
    cfgEx.allow_root = none ∧ (0 : Nat) = 0 ∧
      runToSelection cfgEx 0 (fun _ => []) 0 0 = ([], RunOutcome.exited 1) :=
  ⟨rfl, rfl, root_gate_refuses cfgEx 0 (fun _ => []) 0 0 rfl rfl⟩

/-- C1 (code bug evidence): on a listing where no record matches the
filters, the selection of source line 83 fails with an unhandled
`IndexError` (`wanted_artifacts[0]` on the empty list), not with the
dedicated `NoMatchError` the specification requires. -/
theorem locate_empty_raises_index_error :
    locate cfgEx [artOther] = Except.error Err.indexError ∧
      Err.indexError ≠ Err.noMatch := by
  constructor
  · simp [locate, sortByFreshness, wanted_artifacts, cfgEx, artOther]
  · decide

/-- Filtering a phase built by mapping a constructor drops everything
when the predicate rejects that constructor. -/
theorem filter_map_false {α : Type} (q : Event → Bool) (f : α → Event)
    (l : List α) (h : ∀ x, q (f x) = false) : (l.map f).filter q = [] := by
  induction l with
  | nil => rfl
  | cons a t ih => simp [h a, ih]

/-- Filtering a phase built by mapping a constructor keeps everything
when the predicate accepts that constructor. -/
theorem filter_map_true {α : Type} (q : Event → Bool) (f : α → Event)
    (l : List α) (h : ∀ x, q (f x) = true) : (l.map f).filter q = l.map f := by
  induction l with
  | nil => rfl
  | cons a t ih => simp [h a, ih]

/-- C9: in the full deployment sequence, the status-phase events are
exactly nothing when the service list is empty (no settle delay, no
status query), and exactly one 1.5-second delay followed by the status
queries in list order otherwise (source lines 154-157). -/
theorem status_phase_events (staged : List (Nat × String))
    (services : List String) :
    (deployProgram staged services).filter isStatusPhase =
      (if services = [] then []
       else Event.sleepFor (3 / 2) :: services.map Event.sudoStatus) := by
  have h1 : (stopEvents services).filter isStatusPhase = [] :=
    filter_map_false _ _ _ (fun x => rfl)
  have h2 : (copyEvents staged).filter isStatusPhase = [] :=
    filter_map_false _ _ _ (fun x => rfl)
  have h3 : (startEvents services).filter isStatusPhase = [] :=
    filter_map_false _ _ _ (fun x => rfl)
  have h4 : (unlinkEvents staged).filter isStatusPhase = [] :=
    filter_map_false _ _ _ (fun x => rfl)
  have h5 : (services.map Event.sudoStatus).filter isStatusPhase
      = services.map Event.sudoStatus :=
    filter_map_true _ _ _ (fun x => rfl)
  rw [deployProgram, List.filter_append, List.filter_append,
    List.filter_append, List.filter_append, h1, h2, h3, h4]
  by_cases hs : services = []
  · simp [statusEvents, hs]
  · simp [statusEvents, hs, isStatusPhase, h5]

/-- Splitting an executed event list splits the final file state. -/
theorem execEvents_snd_append (res : Event → Int) (a b : List Event) :
    ∀ files, (execEvents res (a ++ b) files).2
      = (execEvents res b (execEvents res a files).2).2 := by
  induction a with
  | nil => intro files; rfl
  | cons e t ih =>
    intro files
    cases e <;> simp [execEvents, ih]

/-- Events other than `unlinkTemp` leave the staged-file state
unchanged. -/
theorem execEvents_snd_no_unlink (res : Event → Int) :
    ∀ l : List Event, ∀ files, (∀ t, Event.unlinkTemp t ∉ l) →
      (execEvents res l files).2 = files := by
  intro l
  induction l with
  | nil => intro files h; rfl
  | cons e t ih =>
    intro files h
    have he : ∀ u, Event.unlinkTemp u ∉ t := by
      intro u hu
      exact h u (List.mem_cons_of_mem _ hu)
    cases e with
    | unlinkTemp u => exact absurd (List.mem_cons_self _ _) (h u)
    | sudoStop s => simp [execEvents, ih _ he]
    | sudoCp a b => simp [execEvents, ih _ he]
    | sudoStart s => simp [execEvents, ih _ he]
    | sudoStatus s => simp [execEvents, ih _ he]
    | sleepFor q => simp [execEvents, ih _ he]

/-- Running the cleanup loop removes every file whose name is among the
staged keys. -/
theorem execEvents_unlinks (res : Event → Int) :
    ∀ staged : List (Nat × String), ∀ files : List Nat,
      (∀ f ∈ files, f ∈ staged.map Prod.fst) →
      (execEvents res (unlinkEvents staged) files).2 = [] := by
  intro staged
  induction staged with
  | nil =>
    intro files h
    have : files = [] := by
      rw [List.eq_nil_iff_forall_not_mem]
      intro a ha
      simpa using h a ha
    simp [unlinkEvents, execEvents, this]
  | cons p rest ih =>
    intro files h
    have hstep : (execEvents res (unlinkEvents (p :: rest)) files).2
        = (execEvents res (unlinkEvents rest)
            (files.filter (fun f => f ≠ p.1))).2 := by
      simp [unlinkEvents, execEvents]
    rw [hstep]
    apply ih
    intro f hf
    rw [List.mem_filter] at hf
    have hmem := h f hf.1
    simp only [List.map_cons, List.mem_cons] at hmem
    rcases hmem with heq | hmem
    · exact absurd heq (by simpa using hf.2)
    · exact hmem

/-- C7: whatever exit status every stop, copy, start and status command
returns, after the full deployment sequence no staged temporary file
remains on disk: the cleanup loop of source lines 150-152 runs
unconditionally because no subprocess invocation in lines 137-148 uses
`check=True`, so command failures cannot raise and skip it. -/
theorem cleanup_unconditional (staged : List (Nat × String))
    (services : List String) (res : Event → Int) :
    (execEvents res (deployProgram staged services) (staged.map Prod.fst)).2
      = [] := by
  rw [deployProgram, execEvents_snd_append, execEvents_snd_append,
    execEvents_snd_append, execEvents_snd_append]
  rw [execEvents_snd_no_unlink res (stopEvents services) _
    (by intro t ht; simp [stopEvents] at ht)]
  rw [execEvents_snd_no_unlink res (copyEvents staged) _
    (by intro t ht; simp [copyEvents] at ht)]
  rw [execEvents_snd_no_unlink res (startEvents services) _
    (by intro t ht; simp [startEvents] at ht)]
  rw [execEvents_unlinks res staged _ (fun f hf => hf)]
  apply execEvents_snd_no_unlink
  intro t ht
  rw [statusEvents] at ht
  by_cases hs : services = []
  · simp [hs] at ht
  · simp [hs] at ht

/-- Invariant of the pagination loop over a chunked listing: having
already accumulated the pages before `rest`, the loop consumes the
remaining non-empty chunks one per iteration and exits with the whole
listing. -/
theorem paginate_chunks (chunks : List (List ArtifactRecord)) (total : Nat)
    (htot : chunks.flatten.length = total) :
    ∀ rest pre : List (List ArtifactRecord), ∀ fuel : Nat,
      chunks = pre ++ rest → rest.length ≤ fuel → (∀ c ∈ rest, c ≠ []) →
      paginateAux (pageOf chunks) total pre.flatten (pre.length + 1) fuel
        = some (chunks.flatten, chunks.length + 1) := by
  intro rest
  induction rest with
  | nil =>
    intro pre fuel hsplit hfuel hne
    rw [List.append_nil] at hsplit
    subst hsplit
    rw [paginateAux.eq_def, if_neg (by omega)]
  | cons c rest1 ih =>
    intro pre fuel hsplit hfuel hne
    cases fuel with
    | zero => simp at hfuel
    | succ f =>
      have hc : c ≠ [] := hne c (List.mem_cons_self _ _)
      have hclen : 0 < c.length := List.length_pos.mpr hc
      have hlen : pre.flatten.length + (c.length + rest1.flatten.length) = total := by
        rw [hsplit] at htot
        simpa using htot
      have hlt : pre.flatten.length < total := by omega
      rw [paginateAux, if_pos hlt]
      have hget : pageOf chunks (pre.length + 1) = c := by
        rw [pageOf, hsplit]
        have hidx : pre.length + 1 - 1 = pre.length := by omega
        rw [hidx, List.getD_eq_getElem?_getD,
          List.getElem?_append_right (le_refl pre.length)]
        simp
      rw [hget]
      have hjoin : pre.flatten ++ c = (pre ++ [c]).flatten := by simp
      have hlen2 : pre.length + 1 + 1 = (pre ++ [c]).length + 1 := by simp
      rw [hjoin, hlen2]
      exact ih (pre ++ [c]) f (by rw [hsplit]; simp) (by simpa using hfuel)
        (fun x hx => hne x (List.mem_cons_of_mem _ hx))

/-- C2: whatever partition of the listing into non-empty pages the
provider chooses, the pagination loop of source lines 55-66 terminates
and accumulates exactly the whole listing, whose length is the reported
`total_count`; termination is driven by the total count, not by a page
budget. -/
theorem pagination_collects_total (chunks : List (List ArtifactRecord))
    (total : Nat) (h1 : ∀ c ∈ chunks, c ≠ [])
    (h2 : chunks.flatten.length = total) :
    (fetchAllArtifacts (pageOf chunks) total chunks.length).map Prod.fst
      = some chunks.flatten := by
  cases chunks with
  | nil =>
    have ht : total = 0 := by simpa using h2.symm
    subst ht
    rfl
  | cons c1 cs =>
    have h := paginate_chunks (c1 :: cs) total h2 cs [c1] (cs.length + 1)
      rfl (by omega) (fun x hx => h1 x (List.mem_cons_of_mem _ hx))
    simp only [List.flatten_cons, List.flatten_nil, List.append_nil,
      List.length_cons, List.length_nil] at h
    rw [fetchAllArtifacts]
    have hfirst : pageOf (c1 :: cs) 1 = c1 := rfl
    rw [hfirst]
    rw [show (0 : Nat) + 1 + 1 = 2 from rfl] at h
    rw [show (c1 :: cs : List (List ArtifactRecord)).length = cs.length + 1
      from rfl, h]
    rfl

/-- Witness for C2: the two-record listing split into two one-record
pages is collected in full. -/
theorem pagination_collects_total_witness :
    (∀ c ∈ chunksEx, c ≠ []) ∧ chunksEx.flatten.length = 2 ∧
      (fetchAllArtifacts (pageOf chunksEx) 2 chunksEx.length).map Prod.fst
        = some chunksEx.flatten :=
  ⟨by decide, by decide, pagination_collects_total chunksEx 2 (by decide) (by decide)⟩

/-- Lower bound direction for the loop guard: if after `m` further pages
the cumulative length reaches the total, fuel `m` suffices for the loop
to exit. -/
theorem paginateAux_some_of (pages : Nat → List ArtifactRecord) (total : Nat) :
    ∀ m acc page,
      total ≤ (acc ++ (pagesFrom pages page m).flatten).length →
      ∃ r, paginateAux pages total acc page m = some r := by
  intro m
  induction m with
  | zero =>
    intro acc page h
    simp [pagesFrom] at h
    exact ⟨(acc, page), by rw [paginateAux, if_neg (by omega)]⟩
  | succ f ih =>
    intro acc page h
    by_cases hlt : acc.length < total
    · rw [paginateAux, if_pos hlt]
      apply ih
      simp [pagesFrom] at h ⊢
      omega
    · exact ⟨(acc, page), by rw [paginateAux, if_neg hlt]⟩

/-- Upper bound direction for the loop guard: if the loop exits within
`fuel` iterations, some number of further pages brings the cumulative
length up to the total. -/
theorem paginateAux_reaches (pages : Nat → List ArtifactRecord) (total : Nat) :
    ∀ fuel acc page r,
      paginateAux pages total acc page fuel = some r →
      ∃ m, total ≤ (acc ++ (pagesFrom pages page m).flatten).length := by
  intro fuel
  induction fuel with
  | zero =>
    intro acc page r h
    rw [paginateAux] at h
    by_cases hlt : acc.length < total
    · rw [if_pos hlt] at h; simp at h
    · exact ⟨0, by simp [pagesFrom]; omega⟩
  | succ f ih =>
    intro acc page r h
    by_cases hlt : acc.length < total
    · rw [paginateAux, if_pos hlt] at h
      obtain ⟨m, hm⟩ := ih _ _ _ h
      refine ⟨m + 1, ?_⟩
      simp [pagesFrom] at hm ⊢
      omega
    · exact ⟨0, by simp [pagesFrom]; omega⟩

/-- C10 (amended): the pagination loop terminates if and only if the
cumulative record count eventually reaches the reported total; in
particular it runs forever exactly when no number of further pages can
close the gap (for instance when every later page is empty), while a
single empty follow-up page does not by itself prevent termination. -/
theorem pagination_terminates_iff (pages : Nat → List ArtifactRecord)
    (total : Nat) :
    (∃ fuel r, fetchAllArtifacts pages total fuel = some r) ↔
      (∃ m, total ≤ (pages 1 ++ (pagesFrom pages 2 m).flatten).length) := by
  constructor
  · rintro ⟨fuel, r, h⟩
    exact paginateAux_reaches pages total fuel _ _ r h
  · rintro ⟨m, hm⟩
    obtain ⟨r, hr⟩ := paginateAux_some_of pages total m (pages 1) 2 hm
    exact ⟨m, r, hr⟩

/-- Counterexample for C10 as stated: page 2 is a requested follow-up
page that returns an empty artifact list while fewer records than the
total count have been accumulated, yet the loop terminates, because page
3 still closes the gap. -/
theorem empty_page_not_forever :
    pagesSkip 1 = [] ∧ pagesSkip 2 = [] ∧
      fetchAllArtifacts pagesSkip 1 3 = some ([artA], 4) := by
  refine ⟨rfl, rfl, ?_⟩
  rfl

/-- Transitivity of the descending sort comparator. -/
theorem artifactLe_trans (a b c : ArtifactRecord) :
    artifactLe a b = true → artifactLe b c = true → artifactLe a c = true := by
  simp only [artifactLe, decide_eq_true_eq]
  exact fun h1 h2 => le_trans h2 h1

/-- Totality of the descending sort comparator. -/
theorem artifactLe_total (a b : ArtifactRecord) :
    (artifactLe a b || artifactLe b a) = true := by
  simp only [artifactLe, Bool.or_eq_true, decide_eq_true_eq]
  exact le_total b.updated_at a.updated_at

/-- Core fact for C3: the head of the sorted record list is a record of
maximal `updated_at`, and it is the first record of the original list
carrying that maximal timestamp — the stable sort cannot move a later
tied record in front of an earlier one. -/
theorem head_sortByFreshness (l : List ArtifactRecord) (a : ArtifactRecord)
    (t : List ArtifactRecord) (h : sortByFreshness l = a :: t) :
    a ∈ l ∧ (∀ b ∈ l, b.updated_at ≤ a.updated_at) ∧
      l.find? (fun b => b.updated_at == a.updated_at) = some a := by
  have hperm : (a :: t).Perm l := by
    rw [← h, sortByFreshness]
    exact List.mergeSort_perm l artifactLe
  have hmem : a ∈ l := hperm.subset (List.mem_cons_self _ _)
  have hsorted : List.Pairwise (fun x y => artifactLe x y = true) (a :: t) := by
    rw [← h, sortByFreshness]
    exact List.sorted_mergeSort artifactLe_trans artifactLe_total l
  have hmax : ∀ b ∈ l, b.updated_at ≤ a.updated_at := by
    intro b hb
    have hb2 : b ∈ a :: t := hperm.mem_iff.mpr hb
    rcases List.mem_cons.mp hb2 with rfl | hb3
    · exact le_refl _
    · have := (List.pairwise_cons.mp hsorted).1 b hb3
      simpa [artifactLe] using this
  refine ⟨hmem, hmax, ?_⟩
  have hfind : ∃ c, l.find? (fun b => b.updated_at == a.updated_at) = some c := by
    have : (l.find? (fun b => b.updated_at == a.updated_at)).isSome := by
      rw [List.find?_isSome]
      exact ⟨a, hmem, by simp⟩
    exact Option.isSome_iff_exists.mp this
  obtain ⟨c, hc⟩ := hfind
  obtain ⟨hpc, l1, l2, hl, hl1⟩ := List.find?_eq_some.mp hc
  have hts : c.updated_at = a.updated_at := by simpa using hpc
  by_cases hca : c = a
  · rw [hca] at hc; exact hc
  -- Suppose the first record with the maximal timestamp is not the head.
  -- Stability of the sort forces a contradiction via the multiplicity
  -- of the head record.
  exfalso
  have hanotl1 : a ∉ l1 := by
    intro hal1
    have := hl1 a hal1
    simp at this
  have hcount : l.count a = l2.count a := by
    rw [hl, List.count_append, List.count_cons]
    have : l1.count a = 0 := List.count_eq_zero.mpr hanotl1
    simp [this, hca]
  have hk1 : 1 ≤ l2.count a := by
    have hal : a ∈ l2 := by
      have := hmem
      rw [hl] at this
      rcases List.mem_append.mp this with h1 | h2
      · exact absurd h1 hanotl1
      · rcases List.mem_cons.mp h2 with h3 | h4
        · exact absurd h3.symm hca
        · exact h4
    exact List.one_le_count_iff.mpr hal
  set k := l2.count a with hkdef
  -- The witness sublist: the earlier tied record followed by every
  -- occurrence of the head record.
  have hsub : (c :: List.replicate k a).Sublist l := by
    rw [hl]
    have h1 : (List.replicate k a).Sublist l2 :=
      List.le_count_iff_replicate_sublist.mp (le_refl k)
    have h2 : (c :: List.replicate k a).Sublist (c :: l2) :=
      List.cons_sublist_cons.mpr h1
    exact h2.trans (List.sublist_append_right l1 (c :: l2))
  have hpair : List.Pairwise (fun x y => artifactLe x y = true)
      (c :: List.replicate k a) := by
    rw [List.pairwise_cons]
    constructor
    · intro b hb
      have : b = a := List.eq_of_mem_replicate hb
      subst this
      simp [artifactLe, hts]
    · rw [List.pairwise_replicate]
      right
      simp [artifactLe]
  have hstable : (c :: List.replicate k a).Sublist (a :: t) := by
    rw [← h, sortByFreshness]
    exact List.sublist_mergeSort artifactLe_trans artifactLe_total hpair hsub
  have hintail : (c :: List.replicate k a).Sublist t := by
    rcases List.sublist_cons_iff.mp hstable with h1 | ⟨r, hr, _⟩
    · exact h1
    · exact absurd (List.cons_eq_cons.mp hr).1 hca
  have hrep : (List.replicate k a).Sublist t :=
    (List.sublist_cons_self c (List.replicate k a)).trans hintail
  have hkt : k ≤ t.count a := List.le_count_iff_replicate_sublist.mpr hrep
  have hcountperm : (a :: t).count a = l.count a := hperm.count_eq a
  rw [List.count_cons_self, hcount] at hcountperm
  omega

/-- C3: on a non-empty filtered record set, the program's selection
(source lines 80-83: stable descending sort by `updated_at`, take the
first element) yields a record with the maximal timestamp, and among
records tied at that maximum it is the first in the provider's original
order. -/
theorem select_freshest (l : List ArtifactRecord) (hne : l ≠ []) :
    ∃ a t, sortByFreshness l = a :: t ∧ a ∈ l ∧
      (∀ b ∈ l, b.updated_at ≤ a.updated_at) ∧
      l.find? (fun b => b.updated_at == a.updated_at) = some a := by
  have hperm : (sortByFreshness l).Perm l := List.mergeSort_perm l artifactLe
  have : sortByFreshness l ≠ [] := by
    intro hnil
    rw [hnil] at hperm
    exact hne hperm.symm.eq_nil
  rcases hhead : sortByFreshness l with _ | ⟨a, t⟩
  · exact absurd hhead this
  · obtain ⟨h1, h2, h3⟩ := head_sortByFreshness l a t hhead
    exact ⟨a, t, rfl, h1, h2, h3⟩

/-- Witness for C3: on the two-record sample listing the fresher record
`artB` must be selected. -/
theorem select_freshest_witness :
    ([artA, artB] : List ArtifactRecord) ≠ [] ∧
      (∃ a t, sortByFreshness [artA, artB] = a :: t ∧ a ∈ [artA, artB] ∧
        (∀ b ∈ [artA, artB], b.updated_at ≤ a.updated_at) ∧
        [artA, artB].find? (fun b => b.updated_at == a.updated_at) = some a) :=
  ⟨by decide, select_freshest [artA, artB] (by decide)⟩
/-- Inserting a key that is not yet in the dict appends it, keeping
insertion order. -/
theorem dictInsert_fresh (d : List (Nat × String)) (k : Nat) (v : String)
    (h : ∀ p ∈ d, p.1 ≠ k) : dictInsert d k v = d ++ [(k, v)] := by
  rw [dictInsert, if_neg]
  simp only [List.any_eq_true, beq_iff_eq, not_exists, not_and]
  intro p hp
  simp [h p hp]

/-- The tagged destinations carry exactly the destination list. -/
theorem tagFrom_snd (vs : List String) : ∀ c, (tagFrom c vs).map Prod.snd = vs := by
  induction vs with
  | nil => intro c; rfl
  | cons v vs ih => intro c; simp [tagFrom, ih]

/-- The tagged destinations carry the consecutive counters starting at
the given base. -/
theorem tagFrom_fst (vs : List String) :
    ∀ c, (tagFrom c vs).map Prod.fst = List.range' c vs.length := by
  induction vs with
  | nil => intro c; rfl
  | cons v vs ih => intro c; simp [tagFrom, ih, List.range'_succ]

/-- Length of a tagged destination list. -/
theorem tagFrom_length (vs : List String) :
    ∀ c, (tagFrom c vs).length = vs.length := by
  induction vs with
  | nil => intro c; rfl
  | cons v vs ih => intro c; simp [tagFrom, ih]

/-- Tagging distributes over appending destination lists. -/
theorem tagFrom_append (xs ys : List String) :
    ∀ c, tagFrom c (xs ++ ys) = tagFrom c xs ++ tagFrom (c + xs.length) ys := by
  induction xs with
  | nil => intro c; simp [tagFrom]
  | cons x xs ih =>
    intro c
    simp only [List.cons_append, tagFrom, List.length_cons]
    rw [show xs.append ys = xs ++ ys from rfl, ih (c + 1)]
    have harith : c + 1 + xs.length = c + (xs.length + 1) := by omega
    rw [harith]

/-- Every key tagged from the base onto the list stays below the base
plus the list length. -/
theorem tagFrom_keys (vs : List String) :
    ∀ c p, p ∈ tagFrom c vs → p.1 < c + vs.length := by
  induction vs with
  | nil => intro c p hp; simp [tagFrom] at hp
  | cons v vs ih =>
    intro c p hp
    simp only [tagFrom, List.mem_cons] at hp
    rcases hp with rfl | hp
    · simp
    · have := ih (c + 1) p hp
      simp only [List.length_cons]
      omega

/-- Appending freshly tagged destinations preserves the key invariant
at the advanced counter. -/
theorem keysBelow_append_tagFrom (d : List (Nat × String)) (c : Nat)
    (vs : List String) (h : keysBelow d c) :
    keysBelow (d ++ tagFrom c vs) (c + vs.length) := by
  intro p hp
  rcases List.mem_append.mp hp with h1 | h2
  · have := h p h1; omega
  · exact tagFrom_keys vs c p h2

/-- C5 core: one pattern rule stages exactly the non-directory entries
whose full archive path matches the glob, in archive enumeration order,
each recorded under the next fresh temporary name and mapped to the
rule target directory joined with the entry basename. -/
theorem stagePattern_closed (pr : PatternRule) :
    ∀ (es : List ZipEntry) (d : List (Nat × String)) (ctr : Nat),
      keysBelow d ctr →
      stagePattern pr es d ctr
        = (d ++ tagFrom ctr (patternTargets pr es),
           ctr + (patternMatches pr es).length) := by
  intro es
  induction es with
  | nil =>
    intro d ctr h
    simp [stagePattern, patternTargets, patternMatches, tagFrom]
  | cons e es ih =>
    intro d ctr h
    by_cases hdir : e.is_dir = true
    · rw [show stagePattern pr (e :: es) d ctr = stagePattern pr es d ctr from
        by rw [stagePattern]; simp [hdir]]
      rw [ih d ctr h]
      simp [patternMatches, patternTargets, List.filter_cons, hdir]
    · by_cases hm : fnmatch e.filename pr.pattern = true
      · rw [show stagePattern pr (e :: es) d ctr
            = stagePattern pr es
                (dictInsert d ctr (pathJoin pr.target_dir (basename e.filename)))
                (ctr + 1) from
          by rw [stagePattern]; simp [hdir, hm]]
        rw [dictInsert_fresh d ctr _ (fun p hp => Nat.ne_of_lt (h p hp))]
        have hkb : keysBelow
            (d ++ [(ctr, pathJoin pr.target_dir (basename e.filename))])
            (ctr + 1) := by
          intro p hp
          rcases List.mem_append.mp hp with h1 | h2
          · have := h p h1; omega
          · have hpc : p = (ctr, pathJoin pr.target_dir (basename e.filename)) := by
              simpa using h2
            rw [hpc]
            exact Nat.lt_succ_self ctr
        rw [ih _ (ctr + 1) hkb]
        have hfilter : patternMatches pr (e :: es) = e :: patternMatches pr es := by
          simp [patternMatches, List.filter_cons, hdir, hm]
        have hT : patternTargets pr (e :: es)
            = pathJoin pr.target_dir (basename e.filename) :: patternTargets pr es := by
          simp [patternTargets, hfilter]
        rw [hfilter, hT, Prod.mk.injEq]
        refine ⟨?_, ?_⟩
        · simp [tagFrom, List.append_assoc]
        · simp only [List.length_cons]
          omega
      · rw [show stagePattern pr (e :: es) d ctr = stagePattern pr es d ctr from
          by rw [stagePattern]; simp [hdir, hm]]
        rw [ih d ctr h]
        simp [patternMatches, patternTargets, List.filter_cons, hdir, hm]

/-- C5: for every pattern rule, archive and staging state respecting
the fresh-counter invariant, the mappings the rule adds are exactly the
matching non-directory entries of the archive, in enumeration order,
each with destination targetDir joined with the basename of the entry
path. -/
theorem pattern_rule_stages_exactly_matches (pr : PatternRule)
    (es : List ZipEntry) (d : List (Nat × String)) (ctr : Nat)
    (h : keysBelow d ctr) :
    stagePattern pr es d ctr
      = (d ++ tagFrom ctr (patternTargets pr es),
         ctr + (patternMatches pr es).length) :=
  stagePattern_closed pr es d ctr h

/-- Witness for C5 at the sample pattern rule and archive, starting
from the empty dict. -/
theorem pattern_rule_stages_witness :
    keysBelow [] 0 ∧
      stagePattern prEx entriesEx [] 0
        = ([] ++ tagFrom 0 (patternTargets prEx entriesEx),
           0 + (patternMatches prEx entriesEx).length) :=
  ⟨fun p hp => absurd hp (List.not_mem_nil p),
   pattern_rule_stages_exactly_matches prEx entriesEx [] 0
     (fun p hp => absurd hp (List.not_mem_nil p))⟩

/-- Closed form of the `copy-files` staging loop on success: every rule
is recorded in list order under consecutive fresh temporary names, with
exactly the target path given in the rule. -/
theorem stageCopyFiles_closed (entries : List ZipEntry) :
    ∀ (rules : List FileRule) (d : List (Nat × String)) (ctr : Nat)
      (d2 : List (Nat × String)) (c2 : Nat),
      keysBelow d ctr →
      stageCopyFiles entries rules d ctr = Except.ok (d2, c2) →
      d2 = d ++ tagFrom ctr (rules.map (fun r => r.target_path))
        ∧ c2 = ctr + rules.length := by
  intro rules
  induction rules with
  | nil =>
    intro d ctr d2 c2 h hok
    simp [stageCopyFiles] at hok
    obtain ⟨h1, h2⟩ := hok
    simp [tagFrom, ← h1, ← h2]
  | cons r rs ih =>
    intro d ctr d2 c2 h hok
    rw [stageCopyFiles] at hok
    by_cases he : hasEntry entries r.archive_path = true
    · rw [if_pos he] at hok
      rw [dictInsert_fresh d ctr _ (fun p hp => Nat.ne_of_lt (h p hp))] at hok
      have hkb : keysBelow (d ++ [(ctr, r.target_path)]) (ctr + 1) := by
        intro p hp
        rcases List.mem_append.mp hp with h1 | h2
        · have := h p h1; omega
        · have hpc : p = (ctr, r.target_path) := by simpa using h2
          rw [hpc]
          exact Nat.lt_succ_self ctr
      obtain ⟨ha, hb⟩ := ih _ (ctr + 1) d2 c2 hkb hok
      refine ⟨?_, ?_⟩
      · rw [ha]
        simp [tagFrom, List.append_assoc]
      · rw [hb]
        simp only [List.length_cons]
        omega
    · rw [if_neg he] at hok
      simp at hok

/-- Closed form of the `copy-patterns` staging loops: the rules
contribute in list order, each rule its matches in archive enumeration
order, under consecutive fresh temporary names continuing the
counter. -/
theorem stagePatterns_closed (entries : List ZipEntry) :
    ∀ (prs : List PatternRule) (d : List (Nat × String)) (ctr : Nat),
      keysBelow d ctr →
      stagePatterns entries prs d ctr
        = (d ++ tagFrom ctr
              ((prs.map (fun pr => patternTargets pr entries)).flatten),
           ctr + ((prs.map (fun pr => patternTargets pr entries)).flatten).length)
    := by
  intro prs
  induction prs with
  | nil =>
    intro d ctr h
    simp [stagePatterns, tagFrom]
  | cons pr prs ih =>
    intro d ctr h
    rw [show stagePatterns entries (pr :: prs) d ctr
        = stagePatterns entries prs (stagePattern pr entries d ctr).1
            (stagePattern pr entries d ctr).2 from by rw [stagePatterns]]
    rw [stagePattern_closed pr entries d ctr h]
    have hlenT : (patternTargets pr entries).length
        = (patternMatches pr entries).length := by
      simp [patternTargets]
    have hkb2 : keysBelow (d ++ tagFrom ctr (patternTargets pr entries))
        (ctr + (patternMatches pr entries).length) := by
      rw [← hlenT]
      exact keysBelow_append_tagFrom d ctr _ h
    rw [ih _ _ hkb2]
    rw [Prod.mk.injEq]
    refine ⟨?_, ?_⟩
    · rw [List.map_cons, List.flatten_cons, tagFrom_append, List.append_assoc, hlenT]
    · simp only [List.map_cons, List.flatten_cons, List.length_append]
      omega

/-- C6: on successful staging, the recorded dict lists all explicit
copy-file mappings first (in rule order), then all pattern-derived
mappings (rules in list order, matches in archive enumeration order),
under the consecutive temporary names 0, 1, 2, and so on; and the copy
phase of the deployment visits exactly these mappings in exactly this
recording order, since a Python dict iterates in insertion order. -/
theorem staging_and_copy_order (cfg : Config) (entries : List ZipEntry)
    (services : List String) (d : List (Nat × String))
    (h : stageAll cfg entries = Except.ok d) :
    d.map Prod.snd
      = cfg.copy_files.map (fun r => r.target_path)
        ++ (cfg.copy_patterns.map (fun pr => patternTargets pr entries)).flatten
    ∧ d.map Prod.fst = List.range d.length
    ∧ (deployProgram d services).filter isCopyEvent = copyEvents d := by
  rw [stageAll] at h
  cases hcf : stageCopyFiles entries cfg.copy_files [] 0 with
  | error e =>
    rw [hcf] at h
    simp [Bind.bind, Except.bind] at h
  | ok dc1 =>
    rw [hcf] at h
    simp only [Bind.bind, Except.bind, pure, Except.pure, Except.ok.injEq] at h
    obtain ⟨ha, hb⟩ := stageCopyFiles_closed entries cfg.copy_files [] 0 dc1.1 dc1.2
      (fun p hp => absurd hp (List.not_mem_nil p)) hcf
    rw [ha, hb] at h
    have hkb : keysBelow
        ([] ++ tagFrom 0 (cfg.copy_files.map (fun r => r.target_path)))
        (0 + cfg.copy_files.length) := by
      have hx := keysBelow_append_tagFrom [] 0
        (cfg.copy_files.map (fun r => r.target_path))
        (fun p hp => absurd hp (List.not_mem_nil p))
      simpa using hx
    rw [stagePatterns_closed entries cfg.copy_patterns _ _ hkb] at h
    rw [← h]
    simp only [List.nil_append]
    rw [show (0 : Nat) + cfg.copy_files.length
        = 0 + (cfg.copy_files.map (fun r => r.target_path)).length from by simp]
    rw [← tagFrom_append]
    refine ⟨?_, ?_, ?_⟩
    · rw [tagFrom_snd]
    · rw [tagFrom_fst, tagFrom_length, List.range_eq_range']
    · have f1 : (stopEvents services).filter isCopyEvent = [] :=
        filter_map_false _ _ _ (fun x => rfl)
      have f3 : (startEvents services).filter isCopyEvent = [] :=
        filter_map_false _ _ _ (fun x => rfl)
      have f4 : ∀ st : List (Nat × String),
          (unlinkEvents st).filter isCopyEvent = [] := fun st =>
        filter_map_false _ _ _ (fun x => rfl)
      have f5 : (statusEvents services).filter isCopyEvent = [] := by
        rw [List.filter_eq_nil_iff]
        intro a ha
        rw [statusEvents] at ha
        by_cases hs : services = []
        · rw [if_pos hs] at ha; simp at ha
        · rw [if_neg hs] at ha
          rcases List.mem_cons.mp ha with rfl | hmem
          · simp [isCopyEvent]
          · obtain ⟨s, hs2, rfl⟩ := List.mem_map.mp hmem
            simp [isCopyEvent]
      have f2 : ∀ st : List (Nat × String),
          (copyEvents st).filter isCopyEvent = copyEvents st := fun st =>
        filter_map_true _ _ _ (fun x => rfl)
      rw [deployProgram, List.filter_append, List.filter_append,
        List.filter_append, List.filter_append, f1, f3, f4, f5, f2]
      simp

/-- Witness for C6 at the sample configuration: one explicit copy rule
followed by the two pattern matches, visited in that order by the copy
phase. -/
theorem staging_and_copy_order_witness :
    stageAll cfgStageEx entriesEx = Except.ok dEx ∧
      (dEx.map Prod.snd
          = cfgStageEx.copy_files.map (fun r => r.target_path)
            ++ (cfgStageEx.copy_patterns.map
                  (fun pr => patternTargets pr entriesEx)).flatten
        ∧ dEx.map Prod.fst = List.range dEx.length
        ∧ (deployProgram dEx ["app.service"]).filter isCopyEvent
            = copyEvents dEx) :=
  have hEval : stageAll cfgStageEx entriesEx = Except.ok dEx := by
    simp [stageAll, cfgStageEx, entriesEx, prEx, dEx, stageCopyFiles, stagePattern,
      stagePatterns, dictInsert, hasEntry, fnmatch, globMatch, splitClass, scanClose,
      classBodyMatch, pathJoin, basename, basenameAux, ZipEntry.is_dir, endsWithSlash,
      startsWithSlash, Bind.bind, Except.bind, pure, Except.pure]
  ⟨hEval, staging_and_copy_order cfgStageEx entriesEx ["app.service"] dEx hEval⟩

end GithubDeploy
